import Mathlib

/-!
Verification of the syntaxdot-rest streaming annotation pipeline.

This file gives a shallow embedding of the stream-processing core of the
repository (the chunk accumulator, the batch annotator, the Unicode
normalizer, the sentence segmenter state machine, and the metadata
stamper) and proves the documented behavioral properties about it.

Stream stages are embedded as functions over lists of upstream events:
an event is either a produced item (Except.ok) or an upstream error
(Except.error); the end of the list is upstream exhaustion.  State
machines written by hand in the source (poll_next loops) are embedded as
explicit step functions on a state type together with the remaining
upstream events.
-/

namespace SyntaxdotRest

/-- A token: a surface form plus a mutable side-table of auxiliary
key/value attributes (the misc column).  Embeds the token type used by
the pipeline (form plus misc map). -/
structure Token where
  form : String
  misc : List (String × Option String)
deriving DecidableEq

/-- A sentence comment.  The metadata stamper pushes attribute/value
comments (Comment::AttrVal in udgraph). -/
inductive Comment where
  | attrVal (attr : String) (val : String)
deriving DecidableEq

/-- A sentence: an ordered sequence of tokens plus comments.  The token
list models exactly the token nodes traversed by
sentence.iter_mut().filter_map(Node::token_mut). -/
structure Sentence where
  tokens : List Token
  comments : List Comment
deriving DecidableEq

/-- A tokenized sentence: the sentence plus the piece encoding produced
by the tokenizer.  Only the number of pieces matters to the core (sort
key and length filter), so pieces are modelled as a list of piece ids. -/
structure SentenceWithPieces where
  sentence : Sentence
  pieces : List Nat
deriving DecidableEq

/-! ### TryChunks: the chunk accumulator (src/async_util/chunks.rs) -/

/-- One exhaustive drive of TryChunks::poll_next, starting from buffer
state buf: each upstream error is returned immediately (the buffer is
left as is, exactly as in the source, which returns without touching
buf); each upstream item is pushed onto the buffer, and the buffer is
emitted and reset when it reaches chunkLen; on upstream exhaustion a
non-empty buffer is emitted, an empty one ends the stream. -/
def tryChunksGo {E I : Type} (chunkLen : Nat) (buf : List I) :
    List (Except E I) → List (Except E (List I))
  | [] => if buf.isEmpty then [] else [Except.ok buf]
  | Except.error e :: rest => Except.error e :: tryChunksGo chunkLen buf rest
  | Except.ok item :: rest =>
      if (buf ++ [item]).length = chunkLen then
        Except.ok (buf ++ [item]) :: tryChunksGo chunkLen [] rest
      else
        tryChunksGo chunkLen (buf ++ [item]) rest

/-- The chunk accumulator driven from its initial (empty-buffer) state
over a whole upstream event sequence. -/
def tryChunks {E I : Type} (chunkLen : Nat) (input : List (Except E I)) :
    List (Except E (List I)) :=
  tryChunksGo chunkLen [] input

/-- Partition of a list into consecutive runs of size B (the last run
may be shorter); the shape produced by slice::chunks / par_chunks_mut.
The degenerate size 0 (which panics in Rust and never occurs here) is
mapped to the empty partition. -/
def chunksOf {α : Type} : Nat → List α → List (List α)
  | _, [] => []
  | 0, _ :: _ => []
  | B + 1, x :: xs => ((x :: xs).take (B + 1)) :: chunksOf (B + 1) (xs.drop B)
termination_by _ l => l.length
decreasing_by
  simp
  omega

/-- The items carried by the ok events of an upstream sequence. -/
def okItems {E I : Type} (input : List (Except E I)) : List I :=
  input.filterMap fun x =>
    match x with
    | Except.ok i => some i
    | Except.error _ => none

/-- The chunks carried by the ok events of an accumulator output. -/
def okChunks {E I : Type} (out : List (Except E (List I))) : List (List I) :=
  out.filterMap fun x =>
    match x with
    | Except.ok c => some c
    | Except.error _ => none

theorem chunksOf_nil {α : Type} (B : Nat) : chunksOf (α := α) B [] = [] := by
  cases B <;> simp [chunksOf]

theorem chunksOf_eq_cons {α : Type} (B : Nat) (l : List α) (hl : l ≠ []) :
    chunksOf (B + 1) l = l.take (B + 1) :: chunksOf (B + 1) (l.drop (B + 1)) := by
  match l with
  | [] => exact absurd rfl hl
  | x :: xs => rw [chunksOf, List.drop_succ_cons]

theorem chunksOf_flatten {α : Type} (B : Nat) (l : List α) :
    (chunksOf (B + 1) l).flatten = l := by
  match l with
  | [] => simp [chunksOf]
  | x :: xs =>
    have ih := chunksOf_flatten B (xs.drop B)
    rw [chunksOf, List.flatten_cons, ih]
    exact List.take_append_drop (B + 1) (x :: xs)
termination_by l.length
decreasing_by
  simp
  omega

theorem chunksOf_of_lt {α : Type} (B : Nat) (l : List α) (h : l.length < B + 1) :
    chunksOf (B + 1) l = if l.isEmpty then [] else [l] := by
  match l with
  | [] => simp [chunksOf]
  | x :: xs =>
    rw [chunksOf_eq_cons B _ (by simp)]
    have htake : (x :: xs).take (B + 1) = x :: xs := List.take_of_length_le (by omega)
    have hdrop : (x :: xs).drop (B + 1) = [] := List.drop_eq_nil_of_le (by omega)
    rw [htake, hdrop, chunksOf_nil]
    simp

theorem chunksOf_mem_ne_nil {α : Type} (B : Nat) (l : List α) (c : List α)
    (hc : c ∈ chunksOf (B + 1) l) : c ≠ [] := by
  match l with
  | [] => simp [chunksOf] at hc
  | x :: xs =>
    rw [chunksOf] at hc
    rcases List.mem_cons.mp hc with h | h
    · subst h
      simp
    · exact chunksOf_mem_ne_nil B (xs.drop B) c h
termination_by l.length
decreasing_by
  simp
  omega

theorem chunksOf_dropLast_length {α : Type} (B : Nat) (l : List α) (c : List α)
    (hc : c ∈ (chunksOf (B + 1) l).dropLast) : c.length = B + 1 := by
  match l with
  | [] => simp [chunksOf] at hc
  | x :: xs =>
    rw [chunksOf] at hc
    rcases hrest : chunksOf (B + 1) (xs.drop B) with _ | ⟨r, rs⟩
    · rw [hrest] at hc
      simp at hc
    · rw [hrest, List.dropLast_cons₂] at hc
      rcases List.mem_cons.mp hc with h | h
      · subst h
        have hne : xs.drop B ≠ [] := by
          intro hnil
          rw [hnil, chunksOf_nil] at hrest
          exact List.noConfusion hrest
        have : B < xs.length := by
          by_contra hle
          exact hne (List.drop_eq_nil_of_le (by omega))
        rw [List.length_take]
        simp
        omega
      · rw [← hrest] at h
        exact chunksOf_dropLast_length B (xs.drop B) c h
termination_by l.length
decreasing_by
  simp
  omega

theorem tryChunksGo_ok_eq {E I : Type} (C : Nat) (buf : List I)
    (hbuf : buf.length < C + 1) (items : List I) :
    tryChunksGo (E := E) (C + 1) buf (items.map Except.ok) =
      (chunksOf (C + 1) (buf ++ items)).map Except.ok := by
  induction items generalizing buf with
  | nil =>
    rw [List.map_nil, List.append_nil, tryChunksGo,
      chunksOf_of_lt C buf hbuf]
    cases buf <;> simp
  | cons a rest ih =>
    rw [List.map_cons, tryChunksGo]
    by_cases hfull : (buf ++ [a]).length = C + 1
    · rw [if_pos hfull, ih [] (by simp)]
      have hne : buf ++ a :: rest ≠ [] := by simp
      rw [chunksOf_eq_cons C _ hne]
      have hsplit : buf ++ a :: rest = (buf ++ [a]) ++ rest := by simp
      rw [hsplit, List.take_left' hfull, List.drop_left' hfull]
      simp
    · rw [if_neg hfull]
      have hlt : (buf ++ [a]).length < C + 1 := by
        simp only [List.length_append, List.length_cons, List.length_nil] at hfull ⊢
        omega
      rw [ih (buf ++ [a]) hlt]
      have h2 : buf ++ [a] ++ rest = buf ++ a :: rest := by simp
      rw [h2]

theorem tryChunksGo_okChunks {E I : Type} (C : Nat) (buf : List I)
    (hbuf : buf.length < C + 1) (input : List (Except E I)) :
    okChunks (tryChunksGo (C + 1) buf input) =
      chunksOf (C + 1) (buf ++ okItems input) := by
  induction input generalizing buf with
  | nil =>
    rw [tryChunksGo, okItems, List.filterMap_nil, List.append_nil,
      chunksOf_of_lt C buf hbuf]
    cases buf <;> simp [okChunks]
  | cons ev rest ih =>
    match ev with
    | Except.error e =>
      rw [tryChunksGo]
      have hok : okItems (Except.error e :: rest) = okItems rest := by
        simp [okItems]
      rw [hok, ← ih buf hbuf]
      simp [okChunks]
    | Except.ok a =>
      rw [tryChunksGo]
      have hok : okItems (Except.ok a :: rest) = a :: okItems rest := by
        simp [okItems]
      rw [hok]
      by_cases hfull : (buf ++ [a]).length = C + 1
      · rw [if_pos hfull]
        have hne : buf ++ a :: okItems rest ≠ [] := by simp
        rw [chunksOf_eq_cons C _ hne]
        have hsplit : buf ++ a :: okItems rest = (buf ++ [a]) ++ okItems rest := by
          simp
        rw [hsplit, List.take_left' hfull, List.drop_left' hfull]
        have hih := ih [] (by simp)
        simp only [List.nil_append] at hih
        rw [← hih]
        simp [okChunks]
      · rw [if_neg hfull]
        have hlt : (buf ++ [a]).length < C + 1 := by
          simp only [List.length_append, List.length_cons, List.length_nil] at hfull ⊢
          omega
        rw [ih (buf ++ [a]) hlt]
        have h2 : buf ++ [a] ++ okItems rest = buf ++ a :: okItems rest := by simp
        rw [h2]

/-- Claim C5: for every error-free upstream sequence and capacity C ≥ 1,
the chunk accumulator emits chunks whose concatenation equals the full
input in order; every chunk except possibly the last has length exactly
C, no emitted chunk is empty, and an empty input produces no chunks. -/
theorem try_chunks_complete {E I : Type} (C : Nat) (hC : 1 ≤ C) (items : List I) :
    tryChunks (E := E) C (items.map Except.ok) = (chunksOf C items).map Except.ok ∧
    (chunksOf C items).flatten = items ∧
    (∀ c ∈ chunksOf C items, c ≠ []) ∧
    (∀ c ∈ (chunksOf C items).dropLast, c.length = C) ∧
    (items = [] → tryChunks (E := E) C (items.map Except.ok) = []) := by
  match C, hC with
  | B + 1, _ =>
    refine ⟨?_, chunksOf_flatten B items, fun c hc => chunksOf_mem_ne_nil B items c hc,
      fun c hc => chunksOf_dropLast_length B items c hc, ?_⟩
    · have h := tryChunksGo_ok_eq (E := E) B [] (by simp) items
      rw [List.nil_append] at h
      exact h
    · intro hnil
      subst hnil
      rfl

/-- Claim C5 witness: capacity 3 on the five-element error-free input. -/
theorem try_chunks_complete_witness :
    (1 ≤ 3) ∧
      tryChunks (E := Unit) 3 ([1, 2, 3, 4, 5].map Except.ok) =
        (chunksOf 3 [1, 2, 3, 4, 5]).map Except.ok :=
  ⟨by decide, (try_chunks_complete 3 (by decide) [1, 2, 3, 4, 5]).1⟩

/-- Claim C3 counterexample: with capacity 3 and upstream events
ok 1, error, ok 2, the item 1 is buffered when the error arrives, yet it
is emitted in the chunk [1, 2] after the error: the buffer is retained,
not discarded, contradicting the claim that buffered items are never
emitted in any later chunk. -/
theorem try_chunks_buffer_not_discarded :
    tryChunks 3 [Except.ok 1, Except.error "disk", Except.ok 2] =
      [Except.error "disk", Except.ok [1, 2]] ∧
    (tryChunks 3 [Except.ok (1 : Nat), Except.error "disk", Except.ok 2]).drop 1 =
      [Except.ok [1, 2]] ∧
    (1 : Nat) ∈ [1, 2] := by
  refine ⟨rfl, rfl, ?_⟩
  decide

/-- Claim C3 (amended): when upstream yields an error, the error is
propagated immediately as the next item of the accumulator; the
partially filled buffer is retained, not discarded, so if polling
continues the buffered items are emitted in subsequent chunks exactly as
if the error had not occurred. -/
theorem try_chunks_error_propagation {E I : Type} (C : Nat) (hC : 1 ≤ C)
    (buf : List I) (hbuf : buf.length < C) (e : E) (rest : List (Except E I)) :
    tryChunksGo C buf (Except.error e :: rest) =
      Except.error e :: tryChunksGo C buf rest ∧
    okChunks (tryChunksGo C buf (Except.error e :: rest)) =
      chunksOf C (buf ++ okItems rest) := by
  match C, hC with
  | B + 1, _ =>
    constructor
    · rw [tryChunksGo]
    · have h := tryChunksGo_okChunks (E := E) B buf hbuf (Except.error e :: rest)
      have hok : okItems (Except.error e :: rest) = okItems rest := by simp [okItems]
      rw [hok] at h
      exact h

/-- Claim C3 witness: capacity 3, buffer holding item 1, an error
followed by item 2. -/
theorem try_chunks_error_propagation_witness :
    tryChunksGo (E := String) (I := Nat) 3 [1]
        (Except.error "disk" :: [Except.ok 2]) =
      Except.error "disk" :: tryChunksGo 3 [1] [Except.ok 2] ∧
    okChunks (tryChunksGo (E := String) (I := Nat) 3 [1]
        (Except.error "disk" :: [Except.ok 2])) =
      chunksOf 3 ([1] ++ okItems (E := String) (I := Nat) [Except.ok 2]) :=
  try_chunks_error_propagation 3 (by decide) [1] (by decide) "disk" [Except.ok 2]

/-! ### Annotator::annotate_sentences (src/annotator.rs) -/

instance : Inhabited SentenceWithPieces := ⟨⟨⟨[], []⟩, []⟩⟩

/-- The max_len filter of Annotator::annotate_sentences: with a
configured bound, keep a sentence iff its piece count is at most the
bound; with no bound configured, keep everything. -/
def keepSentence (maxLen : Option Nat) (s : SentenceWithPieces) : Bool :=
  match maxLen with
  | some maxLen => s.pieces.length ≤ maxLen
  | none => true

/-- The tokenize-then-filter prefix of Annotator::annotate_sentences. -/
def tokenizeFilter (tokenize : Sentence → SentenceWithPieces) (maxLen : Option Nat)
    (sentences : List Sentence) : List SentenceWithPieces :=
  (sentences.map tokenize).filter (keepSentence maxLen)

/-- Insertion into a list sorted by key. -/
def insertByKey {α : Type} (key : α → Nat) (x : α) : List α → List α
  | [] => [x]
  | y :: ys => if key x ≤ key y then x :: y :: ys else y :: insertByKey key x ys

/-- Sort by ascending key: embeds sort_unstable_by_key, which produces a
permutation of its input ordered by the key; the theorems below depend
only on the result being a permutation of the input, so the difference
between stable and unstable sorting is immaterial. -/
def sortByKey {α : Type} (key : α → Nat) : List α → List α
  | [] => []
  | x :: xs => insertByKey key x (sortByKey key xs)

/-- Piece count stored at handle i of the storage vector. -/
def pieceLenAt (swps : List SentenceWithPieces) (i : Nat) : Nat :=
  (swps.getD i default).pieces.length

/-- The sorted handle list of Annotator::annotate_sentences: the mutable
references collected from the storage vector are positional handles into
it, embedded as the indices 0..n sorted by ascending piece count. -/
def sortedHandles (swps : List SentenceWithPieces) : List Nat :=
  sortByKey (pieceLenAt swps) (List.range swps.length)

/-- In-place tagging through one handle: overwrite the storage cell the
handle points at with its tagged value.  The function tag is the
per-sentence effect of Tagger::tag_sentences, which writes its
annotations into each sentence of the batch it is handed. -/
def tagAt (tag : SentenceWithPieces → SentenceWithPieces)
    (storage : List SentenceWithPieces) (i : Nat) : List SentenceWithPieces :=
  match storage[i]? with
  | some s => storage.set i (tag s)
  | none => storage

/-- Tag one batch of handles. -/
def tagBatch (tag : SentenceWithPieces → SentenceWithPieces)
    (storage : List SentenceWithPieces) (batch : List Nat) : List SentenceWithPieces :=
  batch.foldl (tagAt tag) storage

/-- Annotator::annotate_sentences: tokenize every sentence, filter by
max_len, sort the handles by ascending piece count, split the sorted
handle list into consecutive runs of batch_size, tag every run through
its handles, and return the storage vector itself. -/
def annotate_sentences (tag : SentenceWithPieces → SentenceWithPieces)
    (tokenize : Sentence → SentenceWithPieces) (maxLen : Option Nat)
    (batchSize : Nat) (sentences : List Sentence) : List SentenceWithPieces :=
  (chunksOf batchSize (sortedHandles (tokenizeFilter tokenize maxLen sentences))).foldl
    (tagBatch tag) (tokenizeFilter tokenize maxLen sentences)

theorem insertByKey_perm {α : Type} (key : α → Nat) (x : α) (l : List α) :
    (insertByKey key x l).Perm (x :: l) := by
  induction l with
  | nil => exact List.Perm.refl _
  | cons y ys ih =>
    rw [insertByKey]
    by_cases h : key x ≤ key y
    · rw [if_pos h]
    · rw [if_neg h]
      exact (ih.cons y).trans (List.Perm.swap x y ys)

theorem sortByKey_perm {α : Type} (key : α → Nat) (l : List α) :
    (sortByKey key l).Perm l := by
  induction l with
  | nil => exact List.Perm.refl _
  | cons x xs ih =>
    exact (insertByKey_perm key x (sortByKey key xs)).trans (ih.cons x)

theorem foldl_tagBatch_flatten (tag : SentenceWithPieces → SentenceWithPieces)
    (st : List SentenceWithPieces) (chunks : List (List Nat)) :
    chunks.foldl (tagBatch tag) st = tagBatch tag st chunks.flatten := by
  induction chunks generalizing st with
  | nil => rfl
  | cons c cs ih =>
    rw [List.foldl_cons, ih, List.flatten_cons, tagBatch, tagBatch, tagBatch,
      List.foldl_append]

theorem tagBatch_getElem?_not_mem (tag : SentenceWithPieces → SentenceWithPieces)
    (st : List SentenceWithPieces) (batch : List Nat) (n : Nat) (hn : n ∉ batch) :
    (tagBatch tag st batch)[n]? = st[n]? := by
  induction batch generalizing st with
  | nil => rfl
  | cons j js ih =>
    have hnj : n ≠ j := fun h => hn (h ▸ List.mem_cons_self j js)
    have hnjs : n ∉ js := fun h => hn (List.mem_cons_of_mem j h)
    rw [tagBatch, List.foldl_cons, ← tagBatch, ih _ hnjs, tagAt]
    match hj : st[j]? with
    | some s => exact List.getElem?_set_ne (fun h => hnj h.symm)
    | none => rfl

theorem tagBatch_getElem?_mem (tag : SentenceWithPieces → SentenceWithPieces)
    (st : List SentenceWithPieces) (batch : List Nat) (n : Nat)
    (hnd : batch.Nodup) (hn : n ∈ batch) :
    (tagBatch tag st batch)[n]? = (st[n]?).map tag := by
  induction batch generalizing st with
  | nil => exact absurd hn (List.not_mem_nil n)
  | cons j js ih =>
    have hnd' : js.Nodup := (List.nodup_cons.mp hnd).2
    rw [tagBatch, List.foldl_cons, ← tagBatch]
    by_cases hnj : n = j
    · subst hnj
      have hnjs : n ∉ js := (List.nodup_cons.mp hnd).1
      rw [tagBatch_getElem?_not_mem _ _ _ _ hnjs, tagAt]
      match hj : st[n]? with
      | some s =>
        have hlt : n < st.length := by
          have := List.getElem?_eq_some_iff.mp hj
          exact this.choose
        rw [List.getElem?_set_self hlt]
        rfl
      | none => rw [hj]; rfl
    · have hnjs : n ∈ js := by
        rcases List.mem_cons.mp hn with h | h
        · exact absurd h hnj
        · exact h
      rw [ih _ hnd' hnjs, tagAt]
      match hj : st[j]? with
      | some s => rw [List.getElem?_set_ne (fun h => hnj h.symm)]
      | none => rfl

theorem tagBatch_perm_range (tag : SentenceWithPieces → SentenceWithPieces)
    (st : List SentenceWithPieces) (idxs : List Nat)
    (h : idxs.Perm (List.range st.length)) :
    tagBatch tag st idxs = st.map tag := by
  apply List.ext_getElem?
  intro n
  rw [List.getElem?_map]
  by_cases hn : n < st.length
  · have hmem : n ∈ idxs := h.mem_iff.mpr (List.mem_range.mpr hn)
    have hnd : idxs.Nodup := h.symm.nodup (List.nodup_range _)
    exact tagBatch_getElem?_mem tag st idxs n hnd hmem
  · have hmem : n ∉ idxs := fun hin =>
      hn (List.mem_range.mp (h.mem_iff.mp hin))
    rw [tagBatch_getElem?_not_mem tag st idxs n hmem,
      List.getElem?_eq_none (by omega)]
    rfl

/-- Shared characterization: for batch size at least 1,
annotate_sentences returns the tokenized, filtered sentences in their
original positional order, each tagged exactly once; the handle sorting
is invisible in the result. -/
theorem annotate_sentences_eq_map (tag : SentenceWithPieces → SentenceWithPieces)
    (tokenize : Sentence → SentenceWithPieces) (maxLen : Option Nat)
    (B : Nat) (hB : 1 ≤ B) (sentences : List Sentence) :
    annotate_sentences tag tokenize maxLen B sentences =
      (tokenizeFilter tokenize maxLen sentences).map tag := by
  match B, hB with
  | B + 1, _ =>
    rw [annotate_sentences, foldl_tagBatch_flatten, chunksOf_flatten]
    apply tagBatch_perm_range
    have := sortByKey_perm (pieceLenAt (tokenizeFilter tokenize maxLen sentences))
      (List.range (tokenizeFilter tokenize maxLen sentences).length)
    exact this

/-- Claim C1: for every chunk of sentences passed to the annotator, the
annotated sentences come back in the same relative order as in the input
chunk: the reordering by ascending piece length operates on handles into
the storage vector, so after in-place tagging the returned vector is in
original positional order (the tokenized, filtered input mapped by the
tagging effect), with no explicit unsort step. -/
theorem annotate_sentences_order_preserved
    (tag : SentenceWithPieces → SentenceWithPieces)
    (tokenize : Sentence → SentenceWithPieces) (maxLen : Option Nat)
    (B : Nat) (hB : 1 ≤ B) (sentences : List Sentence) :
    annotate_sentences tag tokenize maxLen B sentences =
      (tokenizeFilter tokenize maxLen sentences).map tag :=
  annotate_sentences_eq_map tag tokenize maxLen B hB sentences

/-- Claim C1 witness: two sentences whose piece counts are out of
ascending order (2 pieces then 1 piece), batch size 2. -/
theorem annotate_sentences_order_preserved_witness :
    annotate_sentences id (fun s => ⟨s, List.replicate s.tokens.length 0⟩) none 2
        [⟨[⟨"aa", []⟩, ⟨"bb", []⟩], []⟩, ⟨[⟨"c", []⟩], []⟩] =
      (tokenizeFilter (fun s => ⟨s, List.replicate s.tokens.length 0⟩) none
        [⟨[⟨"aa", []⟩, ⟨"bb", []⟩], []⟩, ⟨[⟨"c", []⟩], []⟩]).map id :=
  annotate_sentences_order_preserved id _ none 2 (by decide) _

/-- Claim C4: with a configured bound K, every sentence whose tokenized
piece count is strictly greater than K is absent from the annotated
output, every sentence whose piece count equals K is present, and with
no bound configured no sentence is dropped. -/
theorem annotate_sentences_max_len_filter (tokenize : Sentence → SentenceWithPieces)
    (K B : Nat) (hB : 1 ≤ B) (sentences : List Sentence) :
    (∀ s ∈ sentences, K < (tokenize s).pieces.length →
        tokenize s ∉ annotate_sentences id tokenize (some K) B sentences) ∧
    (∀ s ∈ sentences, (tokenize s).pieces.length = K →
        tokenize s ∈ annotate_sentences id tokenize (some K) B sentences) ∧
    annotate_sentences id tokenize none B sentences = sentences.map tokenize := by
  rw [annotate_sentences_eq_map id tokenize (some K) B hB sentences,
    annotate_sentences_eq_map id tokenize none B hB sentences,
    List.map_id, List.map_id]
  refine ⟨?_, ?_, ?_⟩
  · intro s _ hlen hmem
    rw [tokenizeFilter] at hmem
    have hkeep := (List.mem_filter.mp hmem).2
    simp only [keepSentence, decide_eq_true_eq] at hkeep
    omega
  · intro s hs hlen
    rw [tokenizeFilter]
    apply List.mem_filter.mpr
    refine ⟨List.mem_map_of_mem tokenize hs, ?_⟩
    simp only [keepSentence, decide_eq_true_eq]
    omega
  · simp [tokenizeFilter, keepSentence]

/-- Claim C4 witness: bound 1, one sentence with one piece (kept) and
the no-bound identity on the same input. -/
theorem annotate_sentences_max_len_filter_witness :
    annotate_sentences id (fun s => ⟨s, [7]⟩) none 1 [⟨[], []⟩] =
      [(⟨[], []⟩ : Sentence)].map (fun s => ⟨s, [7]⟩) :=
  (annotate_sentences_max_len_filter (fun s => ⟨s, [7]⟩) 1 1 (by decide)
    [⟨[], []⟩]).2.2

/-! ### UnicodeCleanup (src/async_syntaxdot/unicode_cleanup.rs) -/

/-- Replace-or-append insertion on the misc side-table: overwrite the
value at an existing key, append a new binding otherwise (the effect of
the map insert used by cleanup_sentence_unicode, observed through
lookups). -/
def miscInsert (k : String) (v : Option String) :
    List (String × Option String) → List (String × Option String)
  | [] => [(k, v)]
  | p :: ps => if p.1 = k then (k, v) :: ps else p :: miscInsert k v ps

/-- Lookup on the misc side-table. -/
def miscLookup (k : String) (m : List (String × Option String)) :
    Option (Option String) :=
  (m.find? (fun p => p.1 = k)).map Prod.snd

/-- The per-token body of cleanup_sentence_unicode: compute the
simplified form; if it differs from the current form, stash the current
form under the key "orth" in misc and overwrite the form; otherwise
leave the token untouched. -/
def cleanupToken (simplify : String → String) (t : Token) : Token :=
  if t.form ≠ simplify t.form then
    ⟨simplify t.form, miscInsert "orth" (some t.form) t.misc⟩
  else t

/-- cleanup_sentence_unicode: apply the per-token cleanup to every token
node of the sentence, leaving comments and token order untouched. -/
def cleanup_sentence_unicode (simplify : String → String) (s : Sentence) : Sentence :=
  ⟨s.tokens.map (cleanupToken simplify), s.comments⟩

/-- Modelled from the spec: the module async_syntaxdot/unicode.rs
(simplify_unicode and Normalization), referenced by mod.rs, is not part
of the provided source tree.  The spec describes it as canonicalizing a
surface form to a configured canonical Unicode form; it is modelled as a
character-wise canonical mapping sending typographic quotation marks and
dashes to canonical ASCII representatives. -/
def simplifyChar (c : Char) : Char :=
  if c = '«' ∨ c = '»' ∨ c = '“' ∨ c = '”' ∨ c = '„' then '"'
  else if c = '–' ∨ c = '—' then '-'
  else c

/-- Modelled from the spec: string-level canonicalization, mapping
simplifyChar over the characters of the form. -/
def simplify_unicode (s : String) : String := String.mk (s.data.map simplifyChar)

theorem simplifyChar_idem (c : Char) : simplifyChar (simplifyChar c) = simplifyChar c := by
  by_cases h1 : c = '«' ∨ c = '»' ∨ c = '“' ∨ c = '”' ∨ c = '„'
  · have h : simplifyChar c = '"' := by rw [simplifyChar, if_pos h1]
    rw [h]
    decide
  · by_cases h2 : c = '–' ∨ c = '—'
    · have h : simplifyChar c = '-' := by rw [simplifyChar, if_neg h1, if_pos h2]
      rw [h]
      decide
    · have h : simplifyChar c = c := by rw [simplifyChar, if_neg h1, if_neg h2]
      rw [h]
      exact h

theorem simplify_unicode_idem (x : String) :
    simplify_unicode (simplify_unicode x) = simplify_unicode x := by
  simp only [simplify_unicode]
  congr 1
  show (x.data.map simplifyChar).map simplifyChar = x.data.map simplifyChar
  rw [List.map_map]
  apply List.map_congr_left
  intro a _
  exact simplifyChar_idem a

theorem cleanupToken_idem (simplify : String → String)
    (hidem : ∀ x, simplify (simplify x) = simplify x) (t : Token) :
    cleanupToken simplify (cleanupToken simplify t) = cleanupToken simplify t := by
  by_cases h : t.form = simplify t.form
  · have ht : cleanupToken simplify t = t := by
      rw [cleanupToken, if_neg (not_not_intro h)]
    rw [ht, ht]
  · have ht : cleanupToken simplify t =
        ⟨simplify t.form, miscInsert "orth" (some t.form) t.misc⟩ := by
      rw [cleanupToken, if_pos h]
    rw [ht, cleanupToken]
    have hfix : simplify (simplify t.form) = simplify t.form := hidem t.form
    rw [if_neg (not_not_intro hfix.symm)]

/-- Claim C6: applying the Unicode normalization step twice yields the
same sentence as applying it once, including the effect on the orth
side-table, for any idempotent form normalizer (and in particular for
the modelled simplify_unicode). -/
theorem cleanup_sentence_unicode_idempotent (simplify : String → String)
    (hidem : ∀ x, simplify (simplify x) = simplify x) (s : Sentence) :
    cleanup_sentence_unicode simplify (cleanup_sentence_unicode simplify s) =
      cleanup_sentence_unicode simplify s := by
  simp only [cleanup_sentence_unicode]
  congr 1
  show (s.tokens.map (cleanupToken simplify)).map (cleanupToken simplify) =
    s.tokens.map (cleanupToken simplify)
  rw [List.map_map]
  apply List.map_congr_left
  intro t _
  exact cleanupToken_idem simplify hidem t

/-- Claim C6 witness: the modelled normalizer is idempotent and the
cleanup of a one-token sentence holding a guillemet is idempotent. -/
theorem cleanup_sentence_unicode_idempotent_witness :
    (∀ x, simplify_unicode (simplify_unicode x) = simplify_unicode x) ∧
    cleanup_sentence_unicode simplify_unicode
        (cleanup_sentence_unicode simplify_unicode ⟨[⟨"«", []⟩], []⟩) =
      cleanup_sentence_unicode simplify_unicode ⟨[⟨"«", []⟩], []⟩ :=
  ⟨simplify_unicode_idem,
    cleanup_sentence_unicode_idempotent simplify_unicode simplify_unicode_idem _⟩

theorem miscLookup_miscInsert_self (k : String) (v : Option String)
    (m : List (String × Option String)) :
    miscLookup k (miscInsert k v m) = some v := by
  induction m with
  | nil => simp [miscInsert, miscLookup, List.find?]
  | cons p ps ih =>
    rw [miscInsert]
    by_cases hp : p.1 = k
    · rw [if_pos hp]
      rw [miscLookup, List.find?_cons_of_pos _ (by simp)]
      rfl
    · rw [if_neg hp]
      rw [miscLookup,
        List.find?_cons_of_neg _ (by simpa using hp)]
      exact ih

theorem miscLookup_miscInsert_ne (k k' : String) (hk : k' ≠ k) (v : Option String)
    (m : List (String × Option String)) :
    miscLookup k' (miscInsert k v m) = miscLookup k' m := by
  induction m with
  | nil =>
    rw [miscInsert, miscLookup, miscLookup,
      List.find?_cons_of_neg _ (by simpa using fun h => hk h.symm)]
  | cons p ps ih =>
    rw [miscInsert]
    by_cases hp : p.1 = k
    · rw [if_pos hp]
      rw [miscLookup, miscLookup,
        List.find?_cons_of_neg _ (by simpa using fun h => hk h.symm),
        List.find?_cons_of_neg _ (by simp; rw [hp]; exact fun h => hk h.symm)]
    · rw [if_neg hp]
      by_cases hpk : p.1 = k'
      · rw [miscLookup, miscLookup,
          List.find?_cons_of_pos _ (by simpa using hpk),
          List.find?_cons_of_pos _ (by simpa using hpk)]
      · rw [miscLookup, miscLookup,
          List.find?_cons_of_neg _ (by simpa using hpk),
          List.find?_cons_of_neg _ (by simpa using hpk)]
        exact ih

/-- Claim C7: for every token of a sentence passing through the Unicode
normalizer, comments and positions are untouched; if normalization
changes the form of the token, the original form is stored under the key
"orth" in the misc side-table and the form is overwritten, with every
other misc key unchanged; if normalization leaves the form unchanged,
the token is left completely unchanged. -/
theorem cleanup_sentence_unicode_frame (simplify : String → String) (s : Sentence)
    (i : Nat) (t : Token) (ht : s.tokens[i]? = some t) :
    (cleanup_sentence_unicode simplify s).comments = s.comments ∧
    (cleanup_sentence_unicode simplify s).tokens[i]? =
      some (cleanupToken simplify t) ∧
    (simplify t.form = t.form → cleanupToken simplify t = t) ∧
    (simplify t.form ≠ t.form →
      (cleanupToken simplify t).form = simplify t.form ∧
      miscLookup "orth" (cleanupToken simplify t).misc = some (some t.form) ∧
      ∀ k, k ≠ "orth" →
        miscLookup k (cleanupToken simplify t).misc = miscLookup k t.misc) := by
  refine ⟨rfl, ?_, ?_, ?_⟩
  · rw [cleanup_sentence_unicode]
    show (s.tokens.map (cleanupToken simplify))[i]? = some (cleanupToken simplify t)
    rw [List.getElem?_map, ht]
    rfl
  · intro h
    rw [cleanupToken, if_neg (not_not_intro h.symm)]
  · intro h
    have hne : t.form ≠ simplify t.form := fun he => h he.symm
    rw [cleanupToken, if_pos hne]
    refine ⟨rfl, ?_, ?_⟩
    · exact miscLookup_miscInsert_self "orth" (some t.form) t.misc
    · intro k hk
      exact miscLookup_miscInsert_ne "orth" k hk (some t.form) t.misc

/-- Claim C7 witness: a one-token sentence whose form is a guillemet,
observed at index 0 with the modelled normalizer. -/
theorem cleanup_sentence_unicode_frame_witness :
    ((⟨[⟨"«", []⟩], []⟩ : Sentence).tokens[0]? = some ⟨"«", []⟩) ∧
    (cleanup_sentence_unicode simplify_unicode ⟨[⟨"«", []⟩], []⟩).comments =
      (⟨[⟨"«", []⟩], []⟩ : Sentence).comments :=
  ⟨rfl, (cleanup_sentence_unicode_frame simplify_unicode ⟨[⟨"«", []⟩], []⟩ 0
    ⟨"«", []⟩ rfl).1⟩

/-! ### Sentences: the segmentation stage (src/async_syntaxdot/sentences.rs) -/

/-- Blankness test of the segmentation stage: line.trim().is_empty() is
true exactly when every character of the line is whitespace. -/
def isBlank (line : String) : Bool := line.data.all Char.isWhitespace

/-- Construction of a sentence from one token group: each surface form
becomes a fresh token with an empty side-table (Token::new), and the
sentence carries no comments. -/
def mkSentence (group : List String) : Sentence :=
  ⟨group.map (fun f => ⟨f, []⟩), []⟩

/-- The state of the Sentences stream: awaiting an upstream line,
holding a pending tokenization of a line, or draining a queue of
segmented sentences. -/
inductive SentencesState where
  | lines
  | tokenizing (line : String)
  | sentences (queue : List Sentence)
deriving DecidableEq

/-- Rank used for termination: each non-consuming transition of the
poll loop strictly lowers it. -/
def sentencesRank : SentencesState → Nat
  | .tokenizing _ => 2
  | .sentences _ => 1
  | .lines => 0

/-- Error type of the segmentation stage output: an upstream error
passed through unchanged, or the data-format error produced when the
tokenizer rejects a line (Cannot tokenize data). -/
inductive SentencesError (E : Type) where
  | upstream (e : E)
  | cannotTokenize
deriving DecidableEq

/-- One call of Sentences::poll_next, given the current state and the
remaining upstream line events: loops until it can return, yielding the
successor state, the remaining upstream events, and the poll output
(none is upstream exhaustion, some error or some sentence otherwise).
In the lines state a blank line is skipped and the loop continues; a
non-blank line moves to tokenizing.  In the tokenizing state a tokenizer
failure returns the data-format error without resetting the state,
exactly as in the source; a success moves to draining the queue.  In the
draining state an empty queue returns to the lines state and the loop
continues; otherwise one sentence is popped and returned. -/
def sentencesPoll {E : Type} (tok : String → Option (List (List String))) :
    SentencesState → List (Except E String) →
      SentencesState × List (Except E String) × Option (Except (SentencesError E) Sentence)
  | .lines, [] => (.lines, [], none)
  | .lines, .error e :: rest => (.lines, rest, some (.error (.upstream e)))
  | .lines, .ok line :: rest =>
      if isBlank line then sentencesPoll tok .lines rest
      else sentencesPoll tok (.tokenizing line) rest
  | .tokenizing line, up =>
      match tok line with
      | none => (.tokenizing line, up, some (.error .cannotTokenize))
      | some groups => sentencesPoll tok (.sentences (groups.map mkSentence)) up
  | .sentences [], up => sentencesPoll tok .lines up
  | .sentences (s :: q), up => (.sentences q, up, some (.ok s))
termination_by st up => (up.length, sentencesRank st)
decreasing_by
  all_goals simp [sentencesRank]
  all_goals omega

/-- Claim C8: a line that is empty or consists only of whitespace
produces no sentence and no error; the stage simply proceeds to the next
upstream line, so polling with the blank line at the head of upstream is
indistinguishable from polling without it. -/
theorem sentences_skip_blank_lines {E : Type}
    (tok : String → Option (List (List String))) (line : String)
    (hblank : isBlank line = true) (rest : List (Except E String)) :
    sentencesPoll tok .lines (Except.ok line :: rest) =
      sentencesPoll tok .lines rest := by
  rw [sentencesPoll, if_pos hblank]

/-- Claim C8 witness: the empty line and a whitespace-only line ahead of
an exhausted upstream. -/
theorem sentences_skip_blank_lines_witness :
    (isBlank "" = true) ∧ (isBlank " \t " = true) ∧
    sentencesPoll (E := Unit) (fun _ => none) .lines [Except.ok " \t "] =
      sentencesPoll (E := Unit) (fun _ => none) .lines [] :=
  ⟨by decide, by decide,
    sentences_skip_blank_lines (fun _ => none) " \t " (by decide) []⟩

/-- Claim C10: when the tokenizer succeeds on a non-blank line with zero
token groups, the stage emits nothing for that line (no sentence, no
empty sentence, no error) and goes back to awaiting the next line; when
it succeeds with at least one group, exactly the first segmented
sentence is returned and the upstream is not consumed any further; and
in the draining state one sentence is returned per poll with the
upstream untouched. -/
theorem sentences_drain_one_per_poll {E : Type}
    (tok : String → Option (List (List String))) (line : String)
    (hblank : isBlank line = false) (rest : List (Except E String)) :
    (tok line = some [] →
      sentencesPoll tok .lines (Except.ok line :: rest) =
        sentencesPoll tok .lines rest) ∧
    (∀ g gs, tok line = some (g :: gs) →
      sentencesPoll tok .lines (Except.ok line :: rest) =
        (.sentences (gs.map mkSentence), rest, some (.ok (mkSentence g)))) ∧
    (∀ s q (up : List (Except E String)),
      sentencesPoll tok (.sentences (s :: q)) up =
        (.sentences q, up, some (.ok s))) := by
  refine ⟨?_, ?_, ?_⟩
  · intro hempty
    rw [sentencesPoll, if_neg (by simp [hblank]), sentencesPoll, hempty]
    show sentencesPoll tok (.sentences ([].map mkSentence)) rest =
      sentencesPoll tok .lines rest
    rw [List.map_nil, sentencesPoll]
  · intro g gs hgroups
    rw [sentencesPoll, if_neg (by simp [hblank]), sentencesPoll, hgroups]
    show sentencesPoll tok (.sentences ((g :: gs).map mkSentence)) rest = _
    rw [List.map_cons, sentencesPoll]
  · intro s q up
    rw [sentencesPoll]

/-- Claim C10 witness: a tokenizer returning zero groups on the
non-blank line a; the poll result equals the poll without that line. -/
theorem sentences_drain_one_per_poll_witness :
    (isBlank "a" = false) ∧
    ((fun _ : String => some ([] : List (List String))) "a" = some []) ∧
    sentencesPoll (E := Unit) (fun _ => some []) .lines [Except.ok "a"] =
      sentencesPoll (E := Unit) (fun _ => some []) .lines [] :=
  ⟨by decide, rfl,
    (sentences_drain_one_per_poll (fun _ => some []) "a" (by decide) []).1 rfl⟩

/-! ### Metadata: provenance stamping (src/async_syntaxdot/metadata.rs,
src/pipeline.rs) -/

/-- The configuration bundle of a pipeline that the composition uses:
its name (stamped on every sentence), description, batch size, and
read-ahead factor. -/
structure Pipeline where
  name : String
  description : String
  batchSize : Nat
  readAhead : Nat

/-- Metadata stamping of one sentence: push the comment
pipeline = name onto the sentence comments. -/
def addPipelineComment (name : String) (s : Sentence) : Sentence :=
  ⟨s.tokens, s.comments ++ [Comment.attrVal "pipeline" name]⟩

/-- Metadata stamping of one chunk: stamp every sentence of the chunk. -/
def metadataChunk (name : String) (chunk : List Sentence) : List Sentence :=
  chunk.map (addPipelineComment name)

/-- The Metadata stream over a whole run: every ok chunk is stamped,
errors pass through unchanged. -/
def metadataRun {E : Type} (name : String)
    (chunks : List (Except E (List Sentence))) : List (Except E (List Sentence)) :=
  chunks.map (Except.map (metadataChunk name))

/-- The final stage of Pipeline::annotations: the annotated chunk
stream is stamped with the name of the owning pipeline
(.metadata(self.name())). -/
def pipelineAnnotations {E : Type} (p : Pipeline)
    (annotated : List (Except E (List Sentence))) : List (Except E (List Sentence)) :=
  metadataRun p.name annotated

/-- Claim C9: every sentence of every chunk emitted by an annotate
pipeline carries a provenance comment whose attribute is pipeline and
whose value is the configured name of that pipeline. -/
theorem pipeline_provenance_stamp {E : Type} (p : Pipeline)
    (annotated : List (Except E (List Sentence))) (chunk : List Sentence)
    (hchunk : Except.ok chunk ∈ pipelineAnnotations p annotated) :
    ∀ s ∈ chunk, Comment.attrVal "pipeline" p.name ∈ s.comments := by
  intro s hs
  rw [pipelineAnnotations, metadataRun] at hchunk
  rcases List.mem_map.mp hchunk with ⟨ev, _, hev⟩
  match ev with
  | Except.error e => exact Except.noConfusion hev
  | Except.ok orig =>
    have hchunk' : metadataChunk p.name orig = chunk := Except.ok.inj hev
    rw [← hchunk', metadataChunk] at hs
    rcases List.mem_map.mp hs with ⟨s0, _, hs0⟩
    rw [← hs0, addPipelineComment]
    show Comment.attrVal "pipeline" p.name ∈
      s0.comments ++ [Comment.attrVal "pipeline" p.name]
    exact List.mem_append_right _ (List.mem_singleton.mpr rfl)

/-- Claim C9 witness: a pipeline named nl-ud on a single ok chunk with
one comment-free sentence. -/
theorem pipeline_provenance_stamp_witness :
    (Except.ok (metadataChunk "nl-ud" [⟨[], []⟩]) ∈
      pipelineAnnotations (E := Unit) ⟨"nl-ud", "Dutch", 16, 4⟩
        [Except.ok [⟨[], []⟩]]) ∧
    Comment.attrVal "pipeline" "nl-ud" ∈
      (addPipelineComment "nl-ud" ⟨[], []⟩).comments := by
  constructor
  · exact List.mem_singleton.mpr rfl
  · exact pipeline_provenance_stamp (E := Unit) ⟨"nl-ud", "Dutch", 16, 4⟩
      [Except.ok [⟨[], []⟩]] (metadataChunk "nl-ud" [⟨[], []⟩])
      (List.mem_singleton.mpr rfl) (addPipelineComment "nl-ud" ⟨[], []⟩)
      (List.mem_singleton.mpr rfl)

end SyntaxdotRest
